import Mathlib

/-!
Verification of the `auv_tracker` state store and SSE broker
(`auv_tracker/core.py`, `auv_tracker/server.py`, `auv_tracker/__init__.py`)
against its natural-language specification, by shallow embedding in Lean 4.

Python floats appear only as stored, copied and compared data (the store and
broker never compute on them), so coordinates are carried by `Rat`.
-/

namespace AuvTracker

/-- `Auv` record (core.py, class Auv): producer-supplied position fields.
`alt` and `heading` are optional (`None` in Python). -/
structure Auv where
  timestamp : String
  lat : Rat
  lon : Rat
  alt : Option Rat
  heading : Option Rat
deriving DecidableEq

/-- `Target` record (core.py, class Target): `radius_m` key is optional
(absent when `none`). -/
structure Target where
  lat : Rat
  lon : Rat
  radius_m : Option Rat
deriving DecidableEq

/-- `LatLon` record (core.py, class LatLon): one waypoint. -/
structure LatLon where
  lat : Rat
  lon : Rat
deriving DecidableEq

/-- The store's `State` dataclass (core.py line 31): the mutable triple. -/
structure State where
  auv : Option Auv
  target : Option Target
  path : List LatLon
deriving DecidableEq

/-- `StateStore.__init__` (core.py line 38): empty initial state. -/
def initState : State := { auv := none, target := none, path := [] }

/-- `StateStore.get` (core.py lines 42-49): returns a copy of the triple.
In the value semantics the copy is field-by-field reconstruction; the
aliasing (deep-copy) content of `get` is modelled separately by `hget`
on the explicit heap below. -/
def get (s : State) : State :=
  { auv := s.auv, target := s.target, path := s.path }

/-- `StateStore.set_auv` (core.py lines 51-54): assigns the auv field and
returns `self.get()`.  Result is (new stored state, returned snapshot). -/
def set_auv (s : State) (a : Auv) : State × State :=
  let s' : State := { s with auv := some a }
  (s', get s')

/-- `StateStore.set_target` (core.py lines 56-59): assigns the target field
(`none` clears it) and returns `self.get()`. -/
def set_target (s : State) (t : Option Target) : State × State :=
  let s' : State := { s with target := t }
  (s', get s')

/-- `StateStore.set_path` (core.py lines 61-67): `"append"` extends the
stored path in place; any other mode string rebinds the path to a copy of
`points`.  Returns `self.get()`. -/
def set_path (s : State) (points : List LatLon) (mode : String) : State × State :=
  let s' : State :=
    if mode = "append" then { s with path := s.path ++ points }
    else { s with path := points }
  (s', get s')

/-- One store mutation, for stating trace-level frame properties. -/
inductive Op where
  | opAuv (a : Auv)
  | opTarget (t : Option Target)
  | opPath (points : List LatLon) (mode : String)
deriving DecidableEq

/-- Apply one mutation to the stored state (discarding the returned
snapshot, which equals `get` of the new state). -/
def applyOp (s : State) : Op → State
  | Op.opAuv a => (set_auv s a).1
  | Op.opTarget t => (set_target s t).1
  | Op.opPath ps m => (set_path s ps m).1

/-- Run a trace of mutations from a starting state. -/
def run (s : State) : List Op → State
  | [] => s
  | o :: rest => run (applyOp s o) rest

/-- Discriminator for path mutations, for the trace-level frame property. -/
def isPathOp : Op → Bool
  | Op.opPath _ _ => true
  | _ => false

/-! ## Broker (core.py lines 70-102)

A broker world holds every `Queue` object ever allocated (`queues`,
address = index) and the broker's active-subscriber list `subs` of queue
addresses, mirroring `Broker._subs`.  Unsubscribed queues persist in
`queues` — their owner still holds them — so we can state that a publish
after unsubscribe leaves them untouched. -/

structure BrokerW where
  queues : List (List String)
  subs : List Nat
deriving DecidableEq

/-- The `while True: q.get_nowait()` drain loop of `Broker._put_latest`
(core.py lines 97-101): removes items until the queue raises `Empty`. -/
def drain : List String → List String
  | [] => []
  | _ :: rest => drain rest

/-- `Queue.put_nowait` on a queue with `maxsize`: raises `Full` (modelled
as `Except.error`) when the queue is at capacity, else appends. -/
def putNowait (maxsize : Nat) (q : List String) (item : String) :
    Except Unit (List String) :=
  if maxsize ≤ q.length then Except.error () else Except.ok (q ++ [item])

/-- `Broker._put_latest` (core.py lines 95-102): drain, then `put_nowait`
into the size-1 queue. -/
def put_latest (q : List String) (item : String) : Except Unit (List String) :=
  putNowait 1 (drain q) item

/-- `Broker.subscribe` (core.py lines 76-81): allocate a fresh `Queue(maxsize=1)`,
append it to `_subs`, seed it via `_put_latest`, return its handle (address). -/
def subscribe (w : BrokerW) (snapshot : String) : Except Unit (BrokerW × Nat) :=
  let addr := w.queues.length
  let w1 : BrokerW := { queues := w.queues ++ [[]], subs := w.subs ++ [addr] }
  match put_latest (w1.queues.getD addr []) snapshot with
  | Except.error e => Except.error e
  | Except.ok q => Except.ok ({ w1 with queues := w1.queues.set addr q }, addr)

/-- Python `list.remove`: delete the first occurrence, leave the list
unchanged when the element is absent (the `except ValueError: pass`). -/
def removeFirst : List Nat → Nat → List Nat
  | [], _ => []
  | x :: rest, a => if x = a then rest else x :: removeFirst rest a

/-- `Broker.unsubscribe` (core.py lines 83-88): remove the handle from
`_subs`; absent handles are a silent no-op. -/
def unsubscribe (w : BrokerW) (a : Nat) : BrokerW :=
  { w with subs := removeFirst w.subs a }

/-- The `for q in list(self._subs): self._put_latest(q, payload)` loop of
`Broker.publish_str` (core.py lines 90-93), threading the queue heap. -/
def publishList (queues : List (List String)) (subs : List Nat)
    (payload : String) : Except Unit (List (List String)) :=
  match subs with
  | [] => Except.ok queues
  | a :: rest =>
    match put_latest (queues.getD a []) payload with
    | Except.error e => Except.error e
    | Except.ok q => publishList (queues.set a q) rest payload

/-- `Broker.publish_str` (core.py lines 90-93). -/
def publish_str (w : BrokerW) (payload : String) : Except Unit BrokerW :=
  match publishList w.queues w.subs payload with
  | Except.error e => Except.error e
  | Except.ok qs => Except.ok { w with queues := qs }

/-- A sequence of publishes with no intervening subscriber read. -/
def publishMany (w : BrokerW) : List String → Except Unit BrokerW
  | [] => Except.ok w
  | p :: rest =>
    match publish_str w p with
    | Except.error e => Except.error e
    | Except.ok w' => publishMany w' rest

/-- `Queue.get`: take the front item, or time out (`none`) when empty. -/
def qget : List String → Option (String × List String)
  | [] => none
  | x :: rest => some (x, rest)

/-- A subscriber read from its own mailbox (the `q.get(timeout=15.0)` of
server.py line 102), returning the item and the updated world. -/
def readSub (w : BrokerW) (a : Nat) : Option (String × BrokerW) :=
  match qget (w.queues.getD a []) with
  | none => none
  | some (x, rest) => some (x, { w with queues := w.queues.set a rest })

/-- The single-slot mailbox invariant: every queue ever allocated holds at
most one pending item. -/
def mailboxInv (w : BrokerW) : Prop :=
  ∀ q ∈ w.queues, q.length ≤ 1

instance (w : BrokerW) : Decidable (mailboxInv w) := by
  unfold mailboxInv; infer_instance

/-! ## JSON serialization and SSE framing (core.py lines 104-106,
server.py lines 98-107)

`json.dumps(obj, separators=(',', ':'))` is embedded over a JSON tree.
Numeric leaves carry their decimal rendering (the text Python `repr`
produces for the float); the store and broker never inspect it. -/

inductive Json where
  | null
  | str (s : String)
  | num (render : String)
  | arr (items : List Json)
  | obj (fields : List (String × Json))

/-- The escaping `json.dumps` applies inside a string literal: backslash,
double quote, and control characters. -/
def escChar (c : Char) : String :=
  if c = '\\' then "\\\\"
  else if c = '"' then "\\\""
  else if c = '\n' then "\\n"
  else if c = '\r' then "\\r"
  else if c = '\t' then "\\t"
  else if c.toNat < 32 then
    "\\u" ++ (Nat.toDigits 16 c.toNat).asString.leftpad 4 '0'
  else String.singleton c

/-- A JSON string literal as `json.dumps` writes it. -/
def jstr (s : String) : String :=
  "\"" ++ String.join (s.toList.map escChar) ++ "\""

mutual
/-- `json.dumps(obj, separators=(',', ':'))`: compact rendering, no space
after `,` or `:`, object keys in insertion order. -/
def dumps : Json → String
  | Json.null => "null"
  | Json.str s => jstr s
  | Json.num r => r
  | Json.arr items => "[" ++ dumpsItems items ++ "]"
  | Json.obj fields => "\x7b" ++ dumpsFields fields ++ "\x7d"

def dumpsItems : List Json → String
  | [] => ""
  | [x] => dumps x
  | x :: y :: rest => dumps x ++ "," ++ dumpsItems (y :: rest)

def dumpsFields : List (String × Json) → String
  | [] => ""
  | [(k, v)] => jstr k ++ ":" ++ dumps v
  | (k, v) :: y :: rest => jstr k ++ ":" ++ dumps v ++ "," ++ dumpsFields (y :: rest)
end

/-- JSON value of an optional numeric field (`None` → `null`). -/
def optNum (render : Rat → String) : Option Rat → Json
  | none => Json.null
  | some x => Json.num (render x)

/-- The auv dict as the producers construct it (server.py lines 32-37,
__init__.py line 20): keys lat, lon, alt, heading, timestamp in insertion
order. -/
def auvJson (render : Rat → String) (a : Auv) : Json :=
  Json.obj [("lat", Json.num (render a.lat)), ("lon", Json.num (render a.lon)),
    ("alt", optNum render a.alt), ("heading", optNum render a.heading),
    ("timestamp", Json.str a.timestamp)]

/-- The target dict (server.py lines 66-68): `radius_m` key present only
when supplied. -/
def targetJson (render : Rat → String) (t : Target) : Json :=
  match t.radius_m with
  | none => Json.obj [("lat", Json.num (render t.lat)), ("lon", Json.num (render t.lon))]
  | some r => Json.obj [("lat", Json.num (render t.lat)), ("lon", Json.num (render t.lon)),
      ("radius_m", Json.num (render r))]

/-- A path point dict (core.py `validate_latlon` return, line 116). -/
def latlonJson (render : Rat → String) (p : LatLon) : Json :=
  Json.obj [("lat", Json.num (render p.lat)), ("lon", Json.num (render p.lon))]

/-- The dict `StateStore.get` returns (core.py lines 45-49): keys auv,
target, path in insertion order. -/
def stateJson (render : Rat → String) (s : State) : Json :=
  Json.obj [
    ("auv", match s.auv with | none => Json.null | some a => auvJson render a),
    ("target", match s.target with | none => Json.null | some t => targetJson render t),
    ("path", Json.arr (s.path.map (latlonJson render)))]

/-- `sse_wrap` (core.py lines 104-106):
`f"data: \x7bjson.dumps(obj, separators=(',', ':'))\x7d\n\n"`. -/
def sse_wrap (j : Json) : String :=
  "data: " ++ dumps j ++ "\n\n"

/-- One iteration of the delivery loop `event_stream` (server.py lines
100-105): `some chunk` when `q.get` returned within the timeout, `none`
when it raised `Empty`; yields the chunk or the keep-alive comment frame. -/
def eventStreamStep : Option String → String
  | some chunk => chunk
  | none => ": keep-alive\n\n"

/-! ## Heap model of `StateStore.get`'s deep copy (core.py lines 42-49)

Python mutability enters only through the flat dicts the store holds
(`auv`, `target` and each path point; their values are immutable floats,
strings or `None`).  The heap is the list of all such dict objects,
addressed by index; `dict(d)` allocates a fresh copy.  `hget` is
`StateStore.get` over this heap. -/

inductive PyVal where
  | vnone
  | vnum (q : Rat)
  | vstr (s : String)
deriving DecidableEq

abbrev PyDict := List (String × PyVal)

abbrev Heap := List PyDict

/-- The store's references into the heap: the auv dict, the target dict,
and the path's element dicts. -/
structure HStore where
  auv : Option Nat
  target : Option Nat
  path : List Nat
deriving DecidableEq

/-- The snapshot `get` returns: fresh references of the same shape. -/
structure HSnap where
  auv : Option Nat
  target : Option Nat
  path : List Nat
deriving DecidableEq

/-- Allocate one dict object, returning its fresh address. -/
def alloc (h : Heap) (d : PyDict) : Heap × Nat :=
  (h ++ [d], h.length)

/-- `dict(p) for p in s.path`: copy each referenced dict into a fresh one. -/
def copyDicts (h : Heap) : List Nat → Heap × List Nat
  | [] => (h, [])
  | a :: rest =>
    let (h1, n) := alloc h (h.getD a [])
    let (h2, ns) := copyDicts h1 rest
    (h2, n :: ns)

/-- `dict(d)` on an optional reference (`None` stays `None`). -/
def copyOpt (h : Heap) : Option Nat → Heap × Option Nat
  | none => (h, none)
  | some a =>
    let (h1, n) := alloc h (h.getD a [])
    (h1, some n)

/-- `StateStore.get` over the heap: shallow-copies the auv dict, the
target dict and every path dict into fresh objects. -/
def hget (h : Heap) (st : HStore) : Heap × HSnap :=
  let r1 := copyOpt h st.auv
  let r2 := copyOpt r1.1 st.target
  let r3 := copyDicts r2.1 st.path
  (r3.1, { auv := r1.2, target := r2.2, path := r3.2 })

/-- Addresses the store references. -/
def storeAddrs (st : HStore) : List Nat :=
  st.auv.toList ++ st.target.toList ++ st.path

/-- Addresses a snapshot references. -/
def snapAddrs (sn : HSnap) : List Nat :=
  sn.auv.toList ++ sn.target.toList ++ sn.path

/-- Every address the store references is allocated. -/
def hwf (h : Heap) (st : HStore) : Prop :=
  ∀ a ∈ storeAddrs st, a < h.length

instance (h : Heap) (st : HStore) : Decidable (hwf h st) := by
  unfold hwf; infer_instance

/-- Dereference the store's fields: what a reader of the stored state
observes. -/
def readStore (h : Heap) (st : HStore) :
    Option PyDict × Option PyDict × List PyDict :=
  (st.auv.map (h.getD · []), st.target.map (h.getD · []), st.path.map (h.getD · []))

/-- Dereference a snapshot's fields: what the holder of the returned
snapshot observes. -/
def readSnap (h : Heap) (sn : HSnap) :
    Option PyDict × Option PyDict × List PyDict :=
  (sn.auv.map (h.getD · []), sn.target.map (h.getD · []), sn.path.map (h.getD · []))

/-- In-place mutation of the dict object at address `a`. -/
def mutate (h : Heap) (a : Nat) (d : PyDict) : Heap :=
  h.set a d

/-! ## HTTP boundary: the `POST /api/auv` handler (server.py lines 27-42) -/

/-- `validate_latlon` (core.py lines 108-116): both coordinates required,
range-checked; returns the `\x7b"lat", "lon"\x7d` dict as a `LatLon`. -/
def validate_latlon (lat? lon? : Option Rat) : Except String LatLon :=
  match lat?, lon? with
  | some lat, some lon =>
    if (-90 ≤ lat ∧ lat ≤ 90) ∧ (-180 ≤ lon ∧ lon ≤ 180) then
      Except.ok { lat := lat, lon := lon }
    else Except.error "lat/lon out of range"
  | _, _ => Except.error "lat/lon required and numeric"

/-- The JSON body of a `POST /api/auv` request: optional numeric lat, lon,
alt, heading and an optional timestamp string. -/
structure AuvReq where
  lat : Option Rat
  lon : Option Rat
  alt : Option Rat
  heading : Option Rat
  timestamp : Option String
deriving DecidableEq

/-- A Flask handler result: response body and HTTP status code. -/
abbrev HttpResp := String × Nat

/-- `api_auv` (server.py lines 27-42): validate, build the auv dict, call
`store.set_auv`, publish `sse_wrap(state)` to the broker, and answer
`("", 204)`; a `ValueError` answers the JSON error body with 400. -/
def api_auv (render : Rat → String) (st : State) (w : BrokerW) (data : AuvReq) :
    Except Unit (State × BrokerW × HttpResp) :=
  match validate_latlon data.lat data.lon with
  | Except.error msg =>
    Except.ok (st, w, (dumps (Json.obj [("error", Json.str msg)]), 400))
  | Except.ok ll =>
    let auv : Auv :=
      { timestamp := data.timestamp.getD "", lat := ll.lat,
        lon := ll.lon, alt := data.alt, heading := data.heading }
    let (st', snap) := set_auv st auv
    match publish_str w (sse_wrap (stateJson render snap)) with
    | Except.error e => Except.error e
    | Except.ok w' => Except.ok (st', w', ("", 204))

/-- `AuvTracker.set_auv` (__init__.py lines 18-22): the Python facade
builds the auv dict, stores it, publishes the wrapped snapshot, and
returns `None` — the snapshot is not handed back to the caller. -/
def facade_set_auv (render : Rat → String) (st : State) (w : BrokerW)
    (lat lon : Rat) (alt heading : Option Rat) (timestamp : String) :
    Except Unit (State × BrokerW) :=
  let auv : Auv :=
    { timestamp := timestamp, lat := lat, lon := lon,
      alt := alt, heading := heading }
  let (st', snap) := set_auv st auv
  match publish_str w (sse_wrap (stateJson render snap)) with
  | Except.error e => Except.error e
  | Except.ok w' => Except.ok (st', w')

/-- A fixed numeral rendering, used to evaluate the boundary handlers on
concrete inputs. -/
def renderFix : Rat → String := fun _ => "0"

/-! ## Helper lemmas -/

theorem getD_of_length_le {α : Type} {l : List α} {a : Nat} (h : l.length ≤ a)
    (x : α) : l.getD a x = x := by
  simp [List.getD_eq_getElem?_getD, List.getElem?_eq_none h]

theorem getD_set_ne {α : Type} {l : List α} {a b : Nat} (h : a ≠ b) (d x : α) :
    (l.set a d).getD b x = l.getD b x := by
  simp [List.getD_eq_getElem?_getD, List.getElem?_set_ne h]

theorem getD_set_self {α : Type} {l : List α} {a : Nat} (h : a < l.length)
    (d x : α) : (l.set a d).getD a x = d := by
  simp [List.getD_eq_getElem?_getD, List.getElem?_set_self h]

theorem getD_append_length {α : Type} (l : List α) (d x : α) :
    (l ++ [d]).getD l.length x = d := by
  simp [List.getD_eq_getElem?_getD, List.getElem?_append_right (Nat.le_refl _)]

theorem drain_eq_nil (l : List String) : drain l = [] := by
  induction l with
  | nil => rfl
  | cons x rest ih => simpa [drain] using ih

theorem put_latest_eq (q : List String) (item : String) :
    put_latest q item = Except.ok [item] := by
  simp [put_latest, drain_eq_nil, putNowait]

theorem subscribe_eq (w : BrokerW) (s : String) :
    subscribe w s =
      Except.ok ({ queues := w.queues ++ [[s]], subs := w.subs ++ [w.queues.length] },
        w.queues.length) := by
  have hset : (w.queues ++ [[]]).set w.queues.length [s] = w.queues ++ [[s]] := by
    rw [List.set_append_right _ _ (Nat.le_refl _)]
    simp
  simp [subscribe, put_latest_eq, hset]

/-- Net effect of the `publish_str` loop on the queue heap: every active
subscriber's queue is replaced by `[payload]`, every other queue is left
alone, and no `Full` error can arise. -/
theorem publishList_spec (p : String) (subs : List Nat) :
    ∀ queues : List (List String), ∃ qs,
      publishList queues subs p = Except.ok qs ∧
      qs.length = queues.length ∧
      ∀ a x, qs.getD a x =
        if a ∈ subs ∧ a < queues.length then [p] else queues.getD a x := by
  induction subs with
  | nil =>
    intro queues
    exact ⟨queues, rfl, rfl, by intro a x; simp⟩
  | cons b rest ih =>
    intro queues
    obtain ⟨qs, h1, h2, h3⟩ := ih (queues.set b [p])
    refine ⟨qs, ?_, ?_, ?_⟩
    · simp [publishList, put_latest_eq, h1]
    · simpa using h2
    · intro a x
      rw [h3 a x, List.length_set]
      by_cases hlen : a < queues.length
      · by_cases hab : a = b
        · subst hab
          by_cases hmem : a ∈ rest
          · rw [if_pos ⟨hmem, hlen⟩, if_pos ⟨List.mem_cons_self a rest, hlen⟩]
          · rw [if_neg (fun hc => hmem hc.1), if_pos ⟨List.mem_cons_self a rest, hlen⟩,
              getD_set_self hlen]
        · have hbne : b ≠ a := fun h => hab h.symm
          rw [getD_set_ne hbne]
          by_cases hmem : a ∈ rest
          · rw [if_pos ⟨hmem, hlen⟩, if_pos ⟨List.mem_cons_of_mem b hmem, hlen⟩]
          · have hnc : a ∉ b :: rest := by simp [hab, hmem]
            rw [if_neg (fun hc => hmem hc.1), if_neg (fun hc => hnc hc.1)]
      · have hc1 : ¬(a ∈ rest ∧ a < queues.length) := fun hc => hlen hc.2
        have hc2 : ¬(a ∈ b :: rest ∧ a < queues.length) := fun hc => hlen hc.2
        have hx1 : queues.getD a x = x := getD_of_length_le (Nat.le_of_not_lt hlen) x
        have hx2 : (queues.set b [p]).getD a x = x := by
          apply getD_of_length_le
          simpa using Nat.le_of_not_lt hlen
        rw [if_neg hc1, if_neg hc2, hx1, hx2]

/-- `publish_str` never raises, keeps the subscriber list, and overwrites
exactly the active subscribers' mailboxes with `[payload]`. -/
theorem publish_str_spec (w : BrokerW) (p : String) : ∃ w',
    publish_str w p = Except.ok w' ∧ w'.subs = w.subs ∧
    w'.queues.length = w.queues.length ∧
    ∀ a x, w'.queues.getD a x =
      if a ∈ w.subs ∧ a < w.queues.length then [p] else w.queues.getD a x := by
  obtain ⟨qs, h1, h2, h3⟩ := publishList_spec p w.subs w.queues
  exact ⟨{ w with queues := qs }, by simp [publish_str, h1], rfl, h2, h3⟩

theorem removeFirst_of_not_mem {l : List Nat} {a : Nat} (h : a ∉ l) :
    removeFirst l a = l := by
  induction l with
  | nil => rfl
  | cons x rest ih =>
    have hxa : x ≠ a := fun he => h (he ▸ List.mem_cons_self x rest)
    have har : a ∉ rest := fun hr => h (List.mem_cons_of_mem x hr)
    simp [removeFirst, hxa, ih har]

theorem not_mem_removeFirst {l : List Nat} {a : Nat} (h : l.count a ≤ 1) :
    a ∉ removeFirst l a := by
  induction l with
  | nil => simp [removeFirst]
  | cons x rest ih =>
    by_cases hxa : x = a
    · subst hxa
      have : rest.count x = 0 := by
        have := h
        rw [List.count_cons_self] at this
        omega
      simp [removeFirst, List.count_eq_zero.mp this]
    · have hax : a ≠ x := fun he => hxa he.symm
      have hr : rest.count a ≤ 1 := by
        have := h
        rw [List.count_cons_of_ne hax] at this
        exact this
      simp [removeFirst, hxa]
      exact ⟨fun he => hxa he.symm, ih hr⟩

theorem subscribe_components (w : BrokerW) (s : String) (w' : BrokerW)
    (addr : Nat) (h : subscribe w s = Except.ok (w', addr)) :
    w'.queues = w.queues ++ [[s]] ∧
    w'.subs = w.subs ++ [w.queues.length] ∧ addr = w.queues.length := by
  rw [subscribe_eq] at h
  have h2 := Except.ok.inj h
  injection h2 with h3 h4
  subst h3
  subst h4
  exact ⟨rfl, rfl, rfl⟩

theorem qget_eq_some {l : List String} {x : String} {r : List String}
    (h : qget l = some (x, r)) : l = x :: r := by
  cases l with
  | nil => simp [qget] at h
  | cons y ys =>
    simp [qget] at h
    rw [h.1, h.2]

theorem getD_eq_getElem {α : Type} {l : List α} {i : Nat} (h : i < l.length)
    (x : α) : l.getD i x = l[i] := by
  simp [List.getD_eq_getElem?_getD, List.getElem?_eq_getElem h]

theorem publishMany_cons (w : BrokerW) (p : String) (rest : List String)
    (w1 : BrokerW) (h : publish_str w p = Except.ok w1) :
    publishMany w (p :: rest) = publishMany w1 rest := by
  simp only [publishMany, h]

/-- After a run of publishes with no intervening read, an active
subscriber's mailbox holds exactly the last payload. -/
theorem publishMany_last (a : Nat) (pn : String) :
    ∀ (ps : List String) (w : BrokerW), ps.getLast? = some pn →
      a ∈ w.subs → a < w.queues.length →
      ∃ w', publishMany w ps = Except.ok w' ∧ w'.queues.getD a [] = [pn] := by
  intro ps
  induction ps with
  | nil => intro w hlast; simp at hlast
  | cons p rest ih =>
    intro w hlast hmem hlen
    obtain ⟨w1, h1, hsubs, hqlen, hget⟩ := publish_str_spec w p
    cases rest with
    | nil =>
      refine ⟨w1, (publishMany_cons w p [] w1 h1).trans rfl, ?_⟩
      simp at hlast
      rw [hget a [], if_pos ⟨hmem, hlen⟩, hlast]
    | cons q rest' =>
      rw [List.getLast?_cons_cons] at hlast
      obtain ⟨w', h2, h3⟩ := ih w1 hlast
        (by rw [hsubs]; exact hmem) (by rw [hqlen]; exact hlen)
      exact ⟨w', (publishMany_cons w p _ w1 h1).trans h2, h3⟩

/-! ## Claim theorems -/

/-- C1: `set_path(points, "append")` leaves the stored path equal to the
prior path followed by `points`; `set_path(points, "replace")` installs
exactly `points`; in both modes the returned snapshot's path equals the
new stored path. -/
theorem set_path_append_replace (s : State) (points : List LatLon) :
    (set_path s points "append").1.path = s.path ++ points ∧
    (set_path s points "append").2.path = s.path ++ points ∧
    (set_path s points "replace").1.path = points ∧
    (set_path s points "replace").2.path = points := by
  refine ⟨?_, ?_, ?_, ?_⟩ <;> simp [set_path, get]

/-- C2: N ≥ 1 publishes of `p1..pN` with no intervening read leave the
subscriber's mailbox holding exactly one item, the latest payload `pN`;
its next read yields `pN` and never an earlier payload. -/
theorem publish_coalesces_to_last (w : BrokerW) (a : Nat) (ps : List String)
    (pn : String) (hmem : a ∈ w.subs) (hlen : a < w.queues.length)
    (hlast : ps.getLast? = some pn) :
    ∃ w', publishMany w ps = Except.ok w' ∧
      w'.queues.getD a [] = [pn] ∧
      (w'.queues.getD a []).length = 1 ∧
      readSub w' a =
        some (pn, { w' with queues := w'.queues.set a [] }) := by
  obtain ⟨w', h1, h2⟩ := publishMany_last a pn ps w hlast hmem hlen
  refine ⟨w', h1, h2, by rw [h2]; rfl, ?_⟩
  unfold readSub
  rw [h2]
  rfl

/-- C2 witness: two publishes to a freshly seeded subscriber that never
reads; the mailbox ends holding exactly `"B"`. -/
theorem publish_coalesces_to_last_witness :
    ∃ w', publishMany ⟨[["s"]], [0]⟩ ["A", "B"] = Except.ok w' ∧
      w'.queues.getD 0 [] = ["B"] ∧
      (w'.queues.getD 0 []).length = 1 ∧
      readSub w' 0 =
        some ("B", { w' with queues := w'.queues.set 0 [] }) :=
  publish_coalesces_to_last ⟨[["s"]], [0]⟩ 0 ["A", "B"] "B"
    (by decide) (by decide) (by decide)

/-- C3: every broker operation — subscribe, publish, unsubscribe, and a
subscriber read — preserves the invariant that each mailbox holds at most
one pending item. -/
theorem broker_ops_preserve_mailboxInv (w : BrokerW) (hinv : mailboxInv w)
    (s p : String) (a : Nat) :
    (∀ w' addr, subscribe w s = Except.ok (w', addr) → mailboxInv w') ∧
    (∀ w', publish_str w p = Except.ok w' → mailboxInv w') ∧
    mailboxInv (unsubscribe w a) ∧
    (∀ x w', readSub w a = some (x, w') → mailboxInv w') := by
  refine ⟨?_, ?_, ?_, ?_⟩
  · intro w' addr hs
    obtain ⟨hq1, -, -⟩ := subscribe_components w s w' addr hs
    intro q hq
    rw [hq1] at hq
    rcases List.mem_append.mp hq with h | h
    · exact hinv q h
    · rw [List.mem_singleton.mp h]; rfl
  · intro w' hp
    obtain ⟨w'', h1, _, hqlen, hget⟩ := publish_str_spec w p
    rw [h1] at hp
    obtain rfl := Except.ok.inj hp
    intro q hq
    obtain ⟨i, hi, rfl⟩ := List.mem_iff_getElem.mp hq
    rw [← getD_eq_getElem hi []]
    rw [hget i []]
    by_cases hc : i ∈ w.subs ∧ i < w.queues.length
    · rw [if_pos hc]; rfl
    · rw [if_neg hc]
      have hilen : i < w.queues.length := by rw [← hqlen]; exact hi
      rw [getD_eq_getElem hilen []]
      exact hinv _ (List.getElem_mem hilen)
  · intro q hq
    exact hinv q hq
  · intro x w' hr
    unfold readSub at hr
    cases hq : qget (w.queues.getD a []) with
    | none => rw [hq] at hr; exact absurd hr (by simp)
    | some pr =>
      rw [hq] at hr
      obtain ⟨x0, rest⟩ := pr
      have hw : w' = { w with queues := w.queues.set a rest } := by
        have := Option.some.inj hr
        exact (congrArg Prod.snd this).symm
      have hcons : w.queues.getD a [] = x0 :: rest := qget_eq_some hq
      have hrest : rest.length ≤ 1 := by
        by_cases hal : a < w.queues.length
        · have : (x0 :: rest).length ≤ 1 := by
            rw [← hcons, getD_eq_getElem hal []]
            exact hinv _ (List.getElem_mem hal)
          exact Nat.le_trans (Nat.le_of_succ_le_succ this) (Nat.zero_le 1)
        · exfalso
          have : w.queues.getD a [] = [] :=
            getD_of_length_le (Nat.le_of_not_lt hal) []
          rw [this] at hcons
          exact List.cons_ne_nil x0 rest hcons.symm
      rw [hw]
      intro q hq'
      rcases List.mem_or_eq_of_mem_set hq' with h | h
      · exact hinv q h
      · rw [h]; exact hrest

/-- C3 witness: the invariant holds of a concrete one-subscriber broker
and is preserved by each of the four operations on it. -/
theorem broker_ops_preserve_mailboxInv_witness :
    (∀ w' addr, subscribe ⟨[["s"]], [0]⟩ "i" = Except.ok (w', addr) → mailboxInv w') ∧
    (∀ w', publish_str ⟨[["s"]], [0]⟩ "p" = Except.ok w' → mailboxInv w') ∧
    mailboxInv (unsubscribe ⟨[["s"]], [0]⟩ 0) ∧
    (∀ x w', readSub ⟨[["s"]], [0]⟩ 0 = some (x, w') → mailboxInv w') :=
  broker_ops_preserve_mailboxInv ⟨[["s"]], [0]⟩ (by decide) "i" "p" 0

/-- C7: a subscriber created by `subscribe(s)` is seeded with `s`: its
first read yields `s` even when no publish follows. -/
theorem subscribe_seeds_first_read (w : BrokerW) (s : String) :
    ∃ w' addr, subscribe w s = Except.ok (w', addr) ∧
      ∃ w2, readSub w' addr = some (s, w2) := by
  refine ⟨⟨w.queues ++ [[s]], w.subs ++ [w.queues.length]⟩, w.queues.length,
    subscribe_eq w s,
    ⟨⟨(w.queues ++ [[s]]).set w.queues.length [], w.subs ++ [w.queues.length]⟩, ?_⟩⟩
  have hg : (w.queues ++ [[s]]).getD w.queues.length [] = [s] :=
    getD_append_length _ _ _
  unfold readSub
  rw [hg]
  rfl

/-- C8: after `unsubscribe(h)` a publish raises no error and leaves `h`'s
mailbox unchanged; a second `unsubscribe(h)` is a no-op; `unsubscribe` of
a never-subscribed handle is a no-op on the whole broker. -/
theorem unsubscribe_detaches (w : BrokerW) (h : Nat) (p : String)
    (hcount : w.subs.count h ≤ 1) :
    (∃ w', publish_str (unsubscribe w h) p = Except.ok w' ∧
      ∀ x, w'.queues.getD h x = w.queues.getD h x) ∧
    unsubscribe (unsubscribe w h) h = unsubscribe w h ∧
    (h ∉ w.subs → unsubscribe w h = w) := by
  have hnm : h ∉ (unsubscribe w h).subs := not_mem_removeFirst hcount
  refine ⟨?_, ?_, ?_⟩
  · obtain ⟨w', h1, _, _, hget⟩ := publish_str_spec (unsubscribe w h) p
    refine ⟨w', h1, fun x => ?_⟩
    rw [hget h x, if_neg (fun hc => hnm hc.1)]
    rfl
  · have hnm' : h ∉ removeFirst w.subs h := hnm
    show ({ w with subs := removeFirst (removeFirst w.subs h) h } : BrokerW) = _
    rw [removeFirst_of_not_mem hnm']
    rfl
  · intro hno
    show ({ w with subs := removeFirst w.subs h } : BrokerW) = w
    rw [removeFirst_of_not_mem hno]

theorem applyOp_auv_path (s : State) (a : Auv) :
    applyOp s (Op.opAuv a) = { s with auv := some a } := rfl

theorem applyOp_target_eq (s : State) (t : Option Target) :
    applyOp s (Op.opTarget t) = { s with target := t } := rfl

theorem applyOp_path_eq (s : State) (pts : List LatLon) (m : String) :
    applyOp s (Op.opPath pts m) =
      if m = "append" then { s with path := s.path ++ pts }
      else { s with path := pts } := rfl

/-- The path after a trace is computed by the path mutations alone: the
auv and target mutations interleaved with them never touch it. -/
theorem run_path_depends_only_on_pathOps :
    ∀ (ops : List Op) (s s' : State), s.path = s'.path →
      (run s ops).path = (run s' (ops.filter isPathOp)).path := by
  intro ops
  induction ops with
  | nil => intro s s' h; exact h
  | cons o rest ih =>
    intro s s' h
    cases o with
    | opAuv a =>
      show (run (applyOp s (Op.opAuv a)) rest).path = _
      rw [List.filter_cons_of_neg (by simp [isPathOp])]
      exact ih _ s' (by rw [applyOp_auv_path]; exact h)
    | opTarget t =>
      show (run (applyOp s (Op.opTarget t)) rest).path = _
      rw [List.filter_cons_of_neg (by simp [isPathOp])]
      exact ih _ s' (by rw [applyOp_target_eq]; exact h)
    | opPath pts m =>
      show (run (applyOp s (Op.opPath pts m)) rest).path = _
      rw [List.filter_cons_of_pos (by simp [isPathOp])]
      show _ = (run (applyOp s' (Op.opPath pts m)) (rest.filter isPathOp)).path
      refine ih _ _ ?_
      rw [applyOp_path_eq, applyOp_path_eq]
      by_cases hm : m = "append" <;> simp [hm, h]

/-- The auv field after a trace is the initial value or the argument of
some `set_auv` in the trace. -/
theorem run_auv_source : ∀ (ops : List Op) (s : State),
    (run s ops).auv = s.auv ∨
      ∃ a, Op.opAuv a ∈ ops ∧ (run s ops).auv = some a := by
  intro ops
  induction ops with
  | nil => intro s; exact Or.inl rfl
  | cons o rest ih =>
    intro s
    rcases ih (applyOp s o) with h | ⟨a, hm, he⟩
    · cases o with
      | opAuv a =>
        exact Or.inr ⟨a, List.mem_cons_self _ _, by rw [show run s (Op.opAuv a :: rest) = run (applyOp s (Op.opAuv a)) rest from rfl, h]; rfl⟩
      | opTarget t => exact Or.inl h
      | opPath pts m =>
        refine Or.inl ?_
        show (run (applyOp s (Op.opPath pts m)) rest).auv = s.auv
        rw [h, applyOp_path_eq]
        by_cases hm : m = "append" <;> simp [hm]
    · exact Or.inr ⟨a, List.mem_cons_of_mem o hm, he⟩

/-- The target field after a trace is the initial value or the argument of
some `set_target` in the trace. -/
theorem run_target_source : ∀ (ops : List Op) (s : State),
    (run s ops).target = s.target ∨
      ∃ t, Op.opTarget t ∈ ops ∧ (run s ops).target = t := by
  intro ops
  induction ops with
  | nil => intro s; exact Or.inl rfl
  | cons o rest ih =>
    intro s
    rcases ih (applyOp s o) with h | ⟨t, hm, he⟩
    · cases o with
      | opTarget t =>
        exact Or.inr ⟨t, List.mem_cons_self _ _, by rw [show run s (Op.opTarget t :: rest) = run (applyOp s (Op.opTarget t)) rest from rfl, h]; rfl⟩
      | opAuv a => exact Or.inl h
      | opPath pts m =>
        refine Or.inl ?_
        show (run (applyOp s (Op.opPath pts m)) rest).target = s.target
        rw [h, applyOp_path_eq]
        by_cases hm : m = "append" <;> simp [hm]
    · exact Or.inr ⟨t, List.mem_cons_of_mem o hm, he⟩

/-- C4: each setter mutates only its own field — `set_auv` leaves target
and path unchanged, `set_target` leaves auv and path unchanged, `set_path`
leaves auv and target unchanged — hence over any trace from the empty
initial state, the auv and target fields are the argument of some
corresponding setter call (or still initial), and the path is computed by
the path mutations alone: no mixed partial update ever occurs. -/
theorem mutations_touch_single_field (s : State) (a : Auv) (t : Option Target)
    (pts : List LatLon) (mode : String) (ops : List Op) :
    (set_auv s a).1.target = s.target ∧ (set_auv s a).1.path = s.path ∧
    (set_target s t).1.auv = s.auv ∧ (set_target s t).1.path = s.path ∧
    (set_path s pts mode).1.auv = s.auv ∧ (set_path s pts mode).1.target = s.target ∧
    ((run initState ops).auv = none ∨
      ∃ a0, Op.opAuv a0 ∈ ops ∧ (run initState ops).auv = some a0) ∧
    ((run initState ops).target = none ∨
      ∃ t0, Op.opTarget t0 ∈ ops ∧ (run initState ops).target = t0) ∧
    (run initState ops).path = (run initState (ops.filter isPathOp)).path := by
  refine ⟨rfl, rfl, rfl, rfl, ?_, ?_, ?_, ?_, ?_⟩
  · unfold set_path; by_cases hm : mode = "append" <;> simp [hm]
  · unfold set_path; by_cases hm : mode = "append" <;> simp [hm]
  · exact run_auv_source ops initState
  · exact run_target_source ops initState
  · exact run_path_depends_only_on_pathOps ops initState initState rfl

/-- C9: the store does no semantic validation: `set_path` accepts any mode
string without error, and every mode other than `"append"` (including
invalid tokens) behaves exactly as `"replace"`. -/
theorem set_path_mode_no_validation (s : State) (pts : List LatLon)
    (mode : String) (hm : mode ≠ "append") :
    set_path s pts mode = set_path s pts "replace" ∧
    (set_path s pts mode).1.path = pts ∧
    (set_path s pts mode).2 = get (set_path s pts mode).1 := by
  refine ⟨?_, ?_, rfl⟩ <;> simp [set_path, hm]

/-- C9 witness: the invalid mode token `"Replace"` (wrong case) is treated
exactly as `"replace"` and raises no error. -/
theorem set_path_mode_no_validation_witness :
    set_path initState [⟨1, 2⟩] "Replace" = set_path initState [⟨1, 2⟩] "replace" ∧
    (set_path initState [⟨1, 2⟩] "Replace").1.path = [⟨1, 2⟩] ∧
    (set_path initState [⟨1, 2⟩] "Replace").2 =
      get (set_path initState [⟨1, 2⟩] "Replace").1 :=
  set_path_mode_no_validation initState [⟨1, 2⟩] "Replace" (by decide)

theorem jstr_auv_merge (X : String) : jstr "auv" ++ (":" ++ X) = "\"auv\":" ++ X := by
  rw [← String.append_assoc]
  rfl

theorem jstr_target_merge (X : String) :
    "," ++ (jstr "target" ++ (":" ++ X)) = ",\"target\":" ++ X := by
  rw [← String.append_assoc, ← String.append_assoc]
  rfl

theorem jstr_path_merge (X : String) :
    "," ++ (jstr "path" ++ (":" ++ X)) = ",\"path\":" ++ X := by
  rw [← String.append_assoc, ← String.append_assoc]
  rfl

/-- Compact rendering of the three-field state object: quoted keys in
insertion order `auv`, `target`, `path`, separated by `:` and `,` with no
spaces. -/
theorem dumpsFields_state (v1 v2 v3 : Json) :
    dumpsFields [("auv", v1), ("target", v2), ("path", v3)] =
      "\"auv\":" ++ dumps v1 ++ ",\"target\":" ++ dumps v2 ++
        ",\"path\":" ++ dumps v3 := by
  show jstr "auv" ++ ":" ++ dumps v1 ++ "," ++
      (jstr "target" ++ ":" ++ dumps v2 ++ "," ++
        (jstr "path" ++ ":" ++ dumps v3)) = _
  simp only [String.append_assoc]
  rw [jstr_auv_merge, jstr_target_merge, jstr_path_merge]

/-- C10: `sse_wrap(s)` is exactly `"data: "`, then the compact JSON of the
state (keys `auv`, `target`, `path`, no spaces after separators), then a
blank line; the delivery loop's timeout frame is exactly the comment
`": keep-alive\n\n"`, and on data it forwards the chunk unchanged. -/
theorem sse_event_framing (render : Rat → String) (s : State) (chunk : String) :
    sse_wrap (stateJson render s) =
      "data: " ++ ("\x7b" ++ ("\"auv\":" ++ dumps (s.auv.elim Json.null (auvJson render)) ++
        ",\"target\":" ++ dumps (s.target.elim Json.null (targetJson render)) ++
        ",\"path\":" ++ dumps (Json.arr (s.path.map (latlonJson render)))) ++ "\x7d") ++
      "\n\n" ∧
    eventStreamStep none = ": keep-alive\n\n" ∧
    eventStreamStep (some chunk) = chunk := by
  refine ⟨?_, rfl, rfl⟩
  obtain ⟨a?, t?, pth⟩ := s
  have hd : dumps (stateJson render ⟨a?, t?, pth⟩) =
      "\x7b" ++ dumpsFields [("auv", a?.elim Json.null (auvJson render)),
        ("target", t?.elim Json.null (targetJson render)),
        ("path", Json.arr (pth.map (latlonJson render)))] ++ "\x7d" := by
    cases a? <;> cases t? <;> rfl
  show "data: " ++ dumps (stateJson render ⟨a?, t?, pth⟩) ++ "\n\n" = _
  rw [hd, dumpsFields_state]

theorem getD_append_left {α : Type} (l l' : List α) {i : Nat}
    (hi : i < l.length) (x : α) : (l ++ l').getD i x = l.getD i x := by
  simp [List.getD_eq_getElem?_getD, List.getElem?_append_left hi]

theorem copyOpt_le (h : Heap) (o : Option Nat) :
    h.length ≤ (copyOpt h o).1.length := by
  cases o <;> simp [copyOpt, alloc]

theorem copyOpt_preserves (h : Heap) (o : Option Nat) {i : Nat}
    (hi : i < h.length) : (copyOpt h o).1.getD i [] = h.getD i [] := by
  cases o with
  | none => rfl
  | some a => exact getD_append_left h _ hi []

theorem copyOpt_fresh (h : Heap) (o : Option Nat) {n : Nat}
    (hn : (copyOpt h o).2 = some n) :
    h.length ≤ n ∧ n < (copyOpt h o).1.length := by
  cases o with
  | none => exact absurd hn (by simp [copyOpt])
  | some a =>
    have : h.length = n := Option.some.inj hn
    subst this
    exact ⟨Nat.le_refl _, by simp [copyOpt, alloc]⟩

theorem copyOpt_value (h : Heap) (o : Option Nat) :
    (copyOpt h o).2.map (fun n => (copyOpt h o).1.getD n []) =
      o.map (fun a => h.getD a []) := by
  cases o with
  | none => rfl
  | some a =>
    show some ((h ++ [h.getD a []]).getD h.length []) = some (h.getD a [])
    rw [getD_append_length]

theorem copyDicts_length : ∀ (addrs : List Nat) (h : Heap),
    (copyDicts h addrs).1.length = h.length + addrs.length := by
  intro addrs
  induction addrs with
  | nil => intro h; rfl
  | cons a rest ih =>
    intro h
    show (copyDicts (h ++ [h.getD a []]) rest).1.length = _
    rw [ih]
    simp
    omega

theorem copyDicts_le (addrs : List Nat) (h : Heap) :
    h.length ≤ (copyDicts h addrs).1.length := by
  rw [copyDicts_length]
  exact Nat.le_add_right _ _

theorem copyDicts_preserves : ∀ (addrs : List Nat) (h : Heap) {i : Nat},
    i < h.length → (copyDicts h addrs).1.getD i [] = h.getD i [] := by
  intro addrs
  induction addrs with
  | nil => intro h i hi; rfl
  | cons a rest ih =>
    intro h i hi
    show (copyDicts (h ++ [h.getD a []]) rest).1.getD i [] = _
    rw [ih _ (by simp; omega), getD_append_left h _ hi]

theorem copyDicts_snd_length : ∀ (addrs : List Nat) (h : Heap),
    (copyDicts h addrs).2.length = addrs.length := by
  intro addrs
  induction addrs with
  | nil => intro h; rfl
  | cons a rest ih =>
    intro h
    show ((h.length :: (copyDicts (h ++ [h.getD a []]) rest).2) : List Nat).length = _
    simp [ih]

theorem copyDicts_fresh : ∀ (addrs : List Nat) (h : Heap) {n : Nat},
    n ∈ (copyDicts h addrs).2 →
    h.length ≤ n ∧ n < (copyDicts h addrs).1.length := by
  intro addrs
  induction addrs with
  | nil => intro h n hn; exact absurd hn (by simp [copyDicts])
  | cons a rest ih =>
    intro h n hn
    have hmem : n ∈ (h.length :: (copyDicts (h ++ [h.getD a []]) rest).2 : List Nat) := hn
    have hlen : (copyDicts h (a :: rest)).1.length =
        (copyDicts (h ++ [h.getD a []]) rest).1.length := rfl
    rcases List.mem_cons.mp hmem with he | hm
    · subst he
      refine ⟨Nat.le_refl _, ?_⟩
      rw [hlen, copyDicts_length]
      simp
      omega
    · obtain ⟨h1, h2⟩ := ih (h ++ [h.getD a []]) hm
      refine ⟨?_, by rw [hlen]; exact h2⟩
      have : h.length ≤ (h ++ [h.getD a []]).length := by simp
      omega

theorem copyDicts_values : ∀ (addrs : List Nat) (h : Heap),
    (∀ a ∈ addrs, a < h.length) →
    (copyDicts h addrs).2.map (fun n => (copyDicts h addrs).1.getD n []) =
      addrs.map (fun a => h.getD a []) := by
  intro addrs
  induction addrs with
  | nil => intro h hb; rfl
  | cons a rest ih =>
    intro h hb
    have ha : a < h.length := hb a (List.mem_cons_self a rest)
    have hb' : ∀ a' ∈ rest, a' < (h ++ [h.getD a []]).length := by
      intro a' ha'
      have := hb a' (List.mem_cons_of_mem a ha')
      simp
      omega
    show ((h.length :: (copyDicts (h ++ [h.getD a []]) rest).2 : List Nat).map
        (fun n => (copyDicts (h ++ [h.getD a []]) rest).1.getD n [])) = _
    rw [List.map_cons]
    have hhead : (copyDicts (h ++ [h.getD a []]) rest).1.getD h.length [] =
        h.getD a [] := by
      rw [copyDicts_preserves rest _ (by simp), getD_append_length]
    rw [hhead]
    have htail := ih (h ++ [h.getD a []]) hb'
    rw [htail]
    show _ = (h.getD a [] :: rest.map (fun a' => h.getD a' []))
    congr 1
    apply List.map_congr_left
    intro a' ha'
    exact getD_append_left h _ (hb a' (List.mem_cons_of_mem a ha')) []

theorem hget_preserves (h : Heap) (st : HStore) {i : Nat} (hi : i < h.length) :
    (hget h st).1.getD i [] = h.getD i [] := by
  show (copyDicts (copyOpt (copyOpt h st.auv).1 st.target).1 st.path).1.getD i [] = _
  rw [copyDicts_preserves st.path _
    (lt_of_lt_of_le hi (Nat.le_trans (copyOpt_le h st.auv) (copyOpt_le _ st.target)))]
  rw [copyOpt_preserves _ st.target (lt_of_lt_of_le hi (copyOpt_le h st.auv))]
  exact copyOpt_preserves h st.auv hi

theorem hget_snap_fresh (h : Heap) (st : HStore) :
    ∀ n ∈ snapAddrs (hget h st).2, h.length ≤ n := by
  intro n hn
  have hn' : n ∈ ((copyOpt h st.auv).2.toList ++
      (copyOpt (copyOpt h st.auv).1 st.target).2.toList ++
      (copyDicts (copyOpt (copyOpt h st.auv).1 st.target).1 st.path).2) := hn
  rcases List.mem_append.mp hn' with h12 | h3
  · rcases List.mem_append.mp h12 with h1 | h2
    · have hs : (copyOpt h st.auv).2 = some n := by simpa using h1
      exact (copyOpt_fresh h st.auv hs).1
    · have hs : (copyOpt (copyOpt h st.auv).1 st.target).2 = some n := by
        simpa using h2
      exact Nat.le_trans (copyOpt_le h st.auv) (copyOpt_fresh _ st.target hs).1
  · exact Nat.le_trans (Nat.le_trans (copyOpt_le h st.auv) (copyOpt_le _ st.target))
      (copyDicts_fresh st.path _ h3).1

theorem hget_auv_val (h : Heap) (st : HStore) :
    (hget h st).2.auv.map (fun n => (hget h st).1.getD n []) =
      st.auv.map (fun a0 => h.getD a0 []) := by
  obtain ⟨a?, t?, pth⟩ := st
  cases a? with
  | none => rfl
  | some a0 =>
    show some ((copyDicts (copyOpt (h ++ [h.getD a0 []]) t?).1 pth).1.getD
      h.length []) = some (h.getD a0 [])
    have h1 : h.length < (h ++ [h.getD a0 []]).length := by simp
    have h2 : h.length < (copyOpt (h ++ [h.getD a0 []]) t?).1.length :=
      lt_of_lt_of_le h1 (copyOpt_le _ t?)
    rw [copyDicts_preserves pth _ h2, copyOpt_preserves _ t? h1,
      getD_append_length]

theorem hget_target_val (h : Heap) (st : HStore) (hw : hwf h st) :
    (hget h st).2.target.map (fun n => (hget h st).1.getD n []) =
      st.target.map (fun a0 => h.getD a0 []) := by
  obtain ⟨a?, t?, pth⟩ := st
  cases t? with
  | none => rfl
  | some t0 =>
    have ht0 : t0 < h.length := hw t0 (by simp [storeAddrs])
    show some ((copyDicts ((copyOpt h a?).1 ++
        [(copyOpt h a?).1.getD t0 []]) pth).1.getD (copyOpt h a?).1.length []) =
      some (h.getD t0 [])
    have h1 : (copyOpt h a?).1.length <
        ((copyOpt h a?).1 ++ [(copyOpt h a?).1.getD t0 []]).length := by simp
    rw [copyDicts_preserves pth _ h1, getD_append_length,
      copyOpt_preserves h a? ht0]

theorem hget_path_val (h : Heap) (st : HStore) (hw : hwf h st) :
    (hget h st).2.path.map (fun n => (hget h st).1.getD n []) =
      st.path.map (fun a0 => h.getD a0 []) := by
  have hb : ∀ a ∈ st.path, a < (copyOpt (copyOpt h st.auv).1 st.target).1.length := by
    intro a ha
    exact lt_of_lt_of_le (hw a (by simp [storeAddrs, ha]))
      (Nat.le_trans (copyOpt_le h st.auv) (copyOpt_le _ st.target))
  have hv := copyDicts_values st.path _ hb
  show (copyDicts (copyOpt (copyOpt h st.auv).1 st.target).1 st.path).2.map
    (fun n => (hget h st).1.getD n []) = _
  rw [show (hget h st).1 =
    (copyDicts (copyOpt (copyOpt h st.auv).1 st.target).1 st.path).1 from rfl]
  rw [hv]
  apply List.map_congr_left
  intro a ha
  have hah : a < h.length := hw a (by simp [storeAddrs, ha])
  rw [copyOpt_preserves _ st.target (lt_of_lt_of_le hah (copyOpt_le h st.auv))]
  exact copyOpt_preserves h st.auv hah

theorem readStore_set_outside (h : Heap) (st : HStore) (n : Nat) (d : PyDict)
    (hn : ∀ a ∈ storeAddrs st, n ≠ a) :
    readStore (mutate h n d) st = readStore h st := by
  unfold readStore mutate
  simp only [Prod.mk.injEq]
  refine ⟨?_, ?_, ?_⟩
  · cases hA : st.auv with
    | none => rfl
    | some a =>
      show some ((h.set n d).getD a []) = some (h.getD a [])
      rw [getD_set_ne (hn a (by simp [storeAddrs, hA]))]
  · cases hT : st.target with
    | none => rfl
    | some t =>
      show some ((h.set n d).getD t []) = some (h.getD t [])
      rw [getD_set_ne (hn t (by simp [storeAddrs, hT]))]
  · apply List.map_congr_left
    intro a ha
    exact getD_set_ne (hn a (by simp [storeAddrs, ha])) d []

theorem readSnap_set_outside (h : Heap) (sn : HSnap) (n : Nat) (d : PyDict)
    (hn : ∀ a ∈ snapAddrs sn, n ≠ a) :
    readSnap (mutate h n d) sn = readSnap h sn := by
  unfold readSnap mutate
  simp only [Prod.mk.injEq]
  refine ⟨?_, ?_, ?_⟩
  · cases hA : sn.auv with
    | none => rfl
    | some a =>
      show some ((h.set n d).getD a []) = some (h.getD a [])
      rw [getD_set_ne (hn a (by simp [snapAddrs, hA]))]
  · cases hT : sn.target with
    | none => rfl
    | some t =>
      show some ((h.set n d).getD t []) = some (h.getD t [])
      rw [getD_set_ne (hn t (by simp [snapAddrs, hT]))]
  · apply List.map_congr_left
    intro a ha
    exact getD_set_ne (hn a (by simp [snapAddrs, ha])) d []

theorem readStore_hget (h : Heap) (st : HStore) (hw : hwf h st) :
    readStore (hget h st).1 st = readStore h st := by
  unfold readStore
  simp only [Prod.mk.injEq]
  refine ⟨?_, ?_, ?_⟩
  · cases hA : st.auv with
    | none => rfl
    | some a =>
      show some ((hget h st).1.getD a []) = some (h.getD a [])
      rw [hget_preserves h st (hw a (by simp [storeAddrs, hA]))]
  · cases hT : st.target with
    | none => rfl
    | some t =>
      show some ((hget h st).1.getD t []) = some (h.getD t [])
      rw [hget_preserves h st (hw t (by simp [storeAddrs, hT]))]
  · apply List.map_congr_left
    intro a ha
    exact hget_preserves h st (hw a (by simp [storeAddrs, ha]))

theorem hget_read_eq (h : Heap) (st : HStore) (hw : hwf h st) :
    readSnap (hget h st).1 (hget h st).2 = readStore h st := by
  unfold readSnap readStore
  simp only [Prod.mk.injEq]
  exact ⟨hget_auv_val h st, hget_target_val h st hw, hget_path_val h st hw⟩

/-- C6: `get` returns a deep, independent copy: the snapshot's objects
carry the same values as the stored ones, live at fresh addresses disjoint
from everything the store references, and mutating either side's objects
in place never changes what the other side reads. -/
theorem get_deep_independent_copy (h : Heap) (st : HStore) (hw : hwf h st)
    (h' : Heap) (sn : HSnap) (he : hget h st = (h', sn)) :
    readSnap h' sn = readStore h' st ∧
    (∀ n ∈ snapAddrs sn, n ∉ storeAddrs st) ∧
    (∀ n ∈ snapAddrs sn, ∀ d, readStore (mutate h' n d) st = readStore h' st) ∧
    (∀ n ∈ storeAddrs st, ∀ d, readSnap (mutate h' n d) sn = readSnap h' sn) := by
  have hh' : h' = (hget h st).1 := by rw [he]
  have hsn : sn = (hget h st).2 := by rw [he]
  subst hh'
  subst hsn
  have hdisj : ∀ n ∈ snapAddrs (hget h st).2, n ∉ storeAddrs st := by
    intro n hn hmem
    have h1 : h.length ≤ n := hget_snap_fresh h st n hn
    have h2 : n < h.length := hw n hmem
    omega
  refine ⟨?_, hdisj, ?_, ?_⟩
  · exact (hget_read_eq h st hw).trans (readStore_hget h st hw).symm
  · intro n hn d
    exact readStore_set_outside _ st n d (fun a ha he' => (hdisj n hn) (he' ▸ ha))
  · intro n hn d
    refine readSnap_set_outside _ _ n d (fun a ha he' => ?_)
    exact (hdisj a ha) (he' ▸ hn)

/-- C6 witness: a one-dict heap holding the auv dict, also referenced as
the single path point; `hget` copies it to fresh addresses and the two
sides are mutation-independent. -/
theorem get_deep_independent_copy_witness :
    readSnap ([[("lat", PyVal.vnum 1)], [("lat", PyVal.vnum 1)],
        [("lat", PyVal.vnum 1)]] : Heap) ⟨some 1, none, [2]⟩ =
      readStore ([[("lat", PyVal.vnum 1)], [("lat", PyVal.vnum 1)],
        [("lat", PyVal.vnum 1)]] : Heap) ⟨some 0, none, [0]⟩ ∧
    (∀ n ∈ snapAddrs ⟨some 1, none, [2]⟩, n ∉ storeAddrs ⟨some 0, none, [0]⟩) ∧
    (∀ n ∈ snapAddrs ⟨some 1, none, [2]⟩, ∀ d,
      readStore (mutate ([[("lat", PyVal.vnum 1)], [("lat", PyVal.vnum 1)],
        [("lat", PyVal.vnum 1)]] : Heap) n d) ⟨some 0, none, [0]⟩ =
      readStore ([[("lat", PyVal.vnum 1)], [("lat", PyVal.vnum 1)],
        [("lat", PyVal.vnum 1)]] : Heap) ⟨some 0, none, [0]⟩) ∧
    (∀ n ∈ storeAddrs ⟨some 0, none, [0]⟩, ∀ d,
      readSnap (mutate ([[("lat", PyVal.vnum 1)], [("lat", PyVal.vnum 1)],
        [("lat", PyVal.vnum 1)]] : Heap) n d) ⟨some 1, none, [2]⟩ =
      readSnap ([[("lat", PyVal.vnum 1)], [("lat", PyVal.vnum 1)],
        [("lat", PyVal.vnum 1)]] : Heap) ⟨some 1, none, [2]⟩) :=
  get_deep_independent_copy [[("lat", PyVal.vnum 1)]] ⟨some 0, none, [0]⟩
    (by decide) _ _ rfl

/-- C5 counterexample: on a valid position update the handler answers
`("", 204)` — an empty body, not the new full snapshot (which is neither
the state's compact JSON nor its SSE frame, both nonempty). The snapshot
reaches the caller only through the store-level `set_auv` and the broker. -/
theorem api_auv_returns_no_snapshot :
    api_auv renderFix initState ⟨[], []⟩ ⟨some 1, some 2, none, none, none⟩ =
      Except.ok (({ auv := some ⟨"", 1, 2, none, none⟩, target := none, path := [] } : State),
        (⟨[], []⟩ : BrokerW), ("", 204)) ∧
    ("" : String) ≠ dumps (stateJson renderFix
      (get { auv := some ⟨"", 1, 2, none, none⟩, target := none, path := [] })) ∧
    ("" : String) ≠ sse_wrap (stateJson renderFix
      (get { auv := some ⟨"", 1, 2, none, none⟩, target := none, path := [] })) := by
  refine ⟨rfl, ?_, ?_⟩ <;> decide

/-- C5 as amended: a valid position update computes the new full snapshot,
the store-level `set_auv` returns that snapshot, the handler publishes its
SSE frame to every active subscriber, and the HTTP response to the caller
is `("", 204)` — an empty body, not the snapshot. -/
theorem api_auv_amended (render : Rat → String) (st : State) (w : BrokerW)
    (data : AuvReq) (la lo : Rat) (hla : data.lat = some la)
    (hlo : data.lon = some lo) (h1 : -90 ≤ la) (h2 : la ≤ 90)
    (h3 : -180 ≤ lo) (h4 : lo ≤ 180) :
    ∃ w',
      api_auv render st w data =
        Except.ok ((set_auv st ⟨data.timestamp.getD "", la, lo, data.alt,
          data.heading⟩).1, w', ("", 204)) ∧
      (set_auv st ⟨data.timestamp.getD "", la, lo, data.alt, data.heading⟩).2 =
        get (set_auv st ⟨data.timestamp.getD "", la, lo, data.alt,
          data.heading⟩).1 ∧
      w'.subs = w.subs ∧
      ∀ a ∈ w.subs, a < w.queues.length →
        w'.queues.getD a [] =
          [sse_wrap (stateJson render (set_auv st ⟨data.timestamp.getD "",
            la, lo, data.alt, data.heading⟩).2)] := by
  have hv : validate_latlon data.lat data.lon = Except.ok ⟨la, lo⟩ := by
    rw [hla, hlo]
    show (if (-90 ≤ la ∧ la ≤ 90) ∧ -180 ≤ lo ∧ lo ≤ 180 then
        Except.ok ({ lat := la, lon := lo } : LatLon)
      else Except.error "lat/lon out of range") = _
    rw [if_pos ⟨⟨h1, h2⟩, ⟨h3, h4⟩⟩]
  obtain ⟨w', hpub, hsubs, hqlen, hget'⟩ :=
    publish_str_spec w (sse_wrap (stateJson render
      (set_auv st ⟨data.timestamp.getD "", la, lo, data.alt, data.heading⟩).2))
  refine ⟨w', ?_, rfl, hsubs, ?_⟩
  · have happ : api_auv render st w data =
        match publish_str w (sse_wrap (stateJson render
          (set_auv st ⟨data.timestamp.getD "", la, lo, data.alt,
            data.heading⟩).2)) with
        | Except.error e => Except.error e
        | Except.ok w2 =>
          Except.ok ((set_auv st ⟨data.timestamp.getD "", la, lo, data.alt,
            data.heading⟩).1, w2, ("", 204)) := by
      unfold api_auv
      rw [hv]
    rw [happ, hpub]
  · intro a ham hal
    rw [hget' a [], if_pos ⟨ham, hal⟩]

/-- C5 amended witness: one active subscriber; the update returns 204 with
empty body while the subscriber's mailbox receives the wrapped snapshot. -/
theorem api_auv_amended_witness :
    ∃ w',
      api_auv renderFix initState ⟨[["x"]], [0]⟩ ⟨some 1, some 2, none, none, none⟩ =
        Except.ok ((set_auv initState ⟨"", 1, 2, none, none⟩).1, w', ("", 204)) ∧
      (set_auv initState ⟨"", 1, 2, none, none⟩).2 =
        get (set_auv initState ⟨"", 1, 2, none, none⟩).1 ∧
      w'.subs = (⟨[["x"]], [0]⟩ : BrokerW).subs ∧
      ∀ a ∈ (⟨[["x"]], [0]⟩ : BrokerW).subs,
        a < (⟨[["x"]], [0]⟩ : BrokerW).queues.length →
        w'.queues.getD a [] =
          [sse_wrap (stateJson renderFix
            (set_auv initState ⟨"", 1, 2, none, none⟩).2)] :=
  api_auv_amended renderFix initState ⟨[["x"]], [0]⟩
    ⟨some 1, some 2, none, none, none⟩ 1 2 rfl rfl
    (by decide) (by decide) (by decide) (by decide)

/-- C8 witness: a two-subscriber broker; removing handle 0 detaches it
from publishes, a repeated or unknown removal is a no-op. -/
theorem unsubscribe_detaches_witness :
    (∃ w', publish_str (unsubscribe ⟨[["s"], ["t"]], [0, 1]⟩ 0) "p" = Except.ok w' ∧
      ∀ x, w'.queues.getD 0 x = (⟨[["s"], ["t"]], [0, 1]⟩ : BrokerW).queues.getD 0 x) ∧
    unsubscribe (unsubscribe ⟨[["s"], ["t"]], [0, 1]⟩ 0) 0 =
      unsubscribe ⟨[["s"], ["t"]], [0, 1]⟩ 0 ∧
    (0 ∉ (⟨[["s"], ["t"]], [0, 1]⟩ : BrokerW).subs →
      unsubscribe ⟨[["s"], ["t"]], [0, 1]⟩ 0 = ⟨[["s"], ["t"]], [0, 1]⟩) :=
  unsubscribe_detaches ⟨[["s"], ["t"]], [0, 1]⟩ 0 "p" (by decide)

end AuvTracker
